import Mathlib

/-!
Verification of the uber-go/config merge-expand-decode pipeline.

The Go value model: YAML documents are decoded into Go interface values,
where a mapping is a Go map, a sequence a slice, a scalar any other value,
and an explicit null the nil interface.  `Node` mirrors that sum.  Go map
keys are YAML scalars; we model them by their canonical string form, and a
Go map itself by an association list whose keys are distinct (`mapGet` and
`mapSet` replicate Go map indexing and assignment; the `WF` predicate below
records key distinctness, which holds for every map decoded from Go).
-/

inductive Prim where
  | str (s : String)
  | int (n : Int)
  | bool (b : Bool)
deriving DecidableEq

inductive Node where
  | null
  | scalar (v : Prim)
  | seq (xs : List Node)
  | map (kvs : List (String × Node))

/-- Go `into == nil` test on an interface value. -/
def isNull : Node → Bool
  | .null => true
  | _ => false

/-- internal/merge/merge.go `isMapping`. -/
def isMapping : Node → Bool
  | .map _ => true
  | _ => false

/-- internal/merge/merge.go `isSequence`. -/
def isSequence : Node → Bool
  | .seq _ => true
  | _ => false

/-- internal/merge/merge.go `isScalar`: anything that is neither a mapping
nor a sequence (in Go this includes nil, but `merge` tests nil first). -/
def isScalar (n : Node) : Bool := !isMapping n && !isSequence n

/-- internal/merge/merge.go `describe`. -/
def describe (n : Node) : String :=
  if isMapping n then "mapping"
  else if isSequence n then "sequence"
  else "scalar"

/-- Go map read `m[k]` presence: first (only, for distinct keys) binding. -/
def mapGet : List (String × Node) → String → Option Node
  | [], _ => none
  | (k2, v) :: rest, k => if k2 = k then some v else mapGet rest k

/-- Go map assignment `m[k] = v`: replace the binding if present, else add. -/
def mapSet : List (String × Node) → String → Node → List (String × Node)
  | [], k, v => [(k, v)]
  | (k2, v2) :: rest, k, v =>
      if k2 = k then (k, v) :: rest else (k2, v2) :: mapSet rest k v

mutual

/-- internal/merge/merge.go `merge` (lines 125-153), case for case.  The
`.map/.map` branch is the only one Go reaches with two mappings, because
the earlier guards have already returned. -/
def merge (strict : Bool) (into frm : Node) : Except String Node :=
  if isNull into then .ok frm
  else if isNull frm then .ok .null
  else if isScalar into && isScalar frm then .ok frm
  else if isSequence into && isSequence frm then .ok frm
  else
    match into, frm with
    | .map im, .map fm => (mergeEntries strict im fm).map Node.map
    | _, _ =>
        if !strict then .ok frm
        else .error ("can\x27t merge a " ++ describe frm ++ " into a " ++ describe into)

/-- internal/merge/merge.go `mergeMapping` (lines 155-168): copy `into`,
then for each key of `from` store `merge(merged[k], from[k])`.  A missing
key reads as the nil interface, i.e. `Node.null`.  Go iterates the map in
unspecified order; we iterate the association list in order, which yields
the same map whenever the keys are distinct (as they are for Go maps). -/
def mergeEntries (strict : Bool) (merged : List (String × Node)) :
    List (String × Node) → Except String (List (String × Node))
  | [] => .ok merged
  | (k, v) :: rest =>
      match merge strict ((mapGet merged k).getD .null) v with
      | .error e => .error e
      | .ok m => mergeEntries strict (mapSet merged k m) rest

end

/-- The source loop of internal/merge/merge.go `YAML` (lines 88-110): fold
the decoded sources from lowest to highest priority into the accumulator,
stopping at the first error. -/
def mergeFold (strict : Bool) : Node → List Node → Except String Node
  | acc, [] => .ok acc
  | acc, s :: rest =>
      match merge strict acc s with
      | .error e => .error e
      | .ok m => mergeFold strict m rest

/-- internal/merge/merge.go `YAML` (lines 88-123) at tree level: the fold
starts from the nil interface.  (Sources with no content are skipped by the
Go loop; the model takes the list of decoded trees of the non-empty
sources.) -/
def mergeSources (strict : Bool) (srcs : List Node) : Except String Node :=
  mergeFold strict Node.null srcs

/-- config.go `(*YAML).at` (lines 143-160): walk mapping by segment; any
non-mapping mid-path, or a missing key, yields not-found. -/
def atPath : Node → List String → Option Node
  | cur, [] => some cur
  | cur, seg :: rest =>
      match cur with
      | .map m =>
          match mapGet m seg with
          | some v => atPath v rest
          | none => none
      | _ => none

/-- config.go `Value.HasValue` (line 305) over a provider whose `empty`
flag is false (some source had content): found-ness of `at`. -/
def hasValueAt (root : Node) (p : List String) : Bool := (atPath root p).isSome

/-- Well-formedness of a tree decoded from Go: every mapping came from a Go
map, so its keys are distinct; recursively so. -/
inductive WF : Node → Prop where
  | null : WF .null
  | scalar (v : Prim) : WF (.scalar v)
  | seq (xs : List Node) : (∀ x ∈ xs, WF x) → WF (.seq xs)
  | map (kvs : List (String × Node)) : (kvs.map Prod.fst).Nodup →
      (∀ kv ∈ kvs, WF kv.2) → WF (.map kvs)

theorem mapGet_mapSet (m : List (String × Node)) (k : String) (v : Node) (k2 : String) :
    mapGet (mapSet m k v) k2 = if k2 = k then some v else mapGet m k2 := by
  induction m with
  | nil =>
      simp only [mapSet, mapGet]
      by_cases h : k2 = k
      · subst h
        simp
      · rw [if_neg (fun hh => h hh.symm), if_neg h]
  | cons kv rest ih =>
      obtain ⟨ka, va⟩ := kv
      simp only [mapSet]
      by_cases h1 : ka = k
      · subst h1
        simp only [if_pos rfl, mapGet]
        by_cases h2 : ka = k2
        · subst h2
          simp
        · rw [if_neg h2, if_neg h2, if_neg (fun hh : k2 = ka => h2 hh.symm)]
      · simp only [if_neg h1, mapGet]
        by_cases h2 : ka = k2
        · subst h2
          simp [h1]
        · rw [if_neg h2, if_neg h2, ih]

theorem mapGet_eq_none_of_not_mem (m : List (String × Node)) (k : String)
    (h : k ∉ m.map Prod.fst) : mapGet m k = none := by
  induction m with
  | nil => simp [mapGet]
  | cons kv rest ih =>
      rw [List.map_cons, List.mem_cons] at h
      push_neg at h
      simp only [mapGet]
      rw [if_neg (fun hh => h.1 hh.symm)]
      exact ih h.2

theorem mapGet_mem (m : List (String × Node)) (k : String) (v : Node)
    (h : mapGet m k = some v) : (k, v) ∈ m := by
  induction m with
  | nil => simp [mapGet] at h
  | cons kv rest ih =>
      by_cases h2 : kv.1 = k
      · simp only [mapGet, if_pos h2, Option.some.injEq] at h
        have hkv : kv = (k, v) := Prod.ext h2 h
        rw [← hkv]
        exact List.mem_cons_self _ _
      · simp only [mapGet, if_neg h2] at h
        exact List.mem_cons_of_mem _ (ih h)

theorem mapGet_isSome_of_mem (m : List (String × Node)) (k : String)
    (h : k ∈ m.map Prod.fst) : (mapGet m k).isSome := by
  induction m with
  | nil => simp at h
  | cons kv rest ih =>
      rw [List.map_cons, List.mem_cons] at h
      by_cases h2 : kv.1 = k
      · simp [mapGet, h2]
      · simp only [mapGet, if_neg h2]
        · cases h with
          | inl h3 => exact absurd h3.symm h2
          | inr h3 => exact ih h3

/-- What Go's `mergeMapping` loop guarantees about the result map, given
that the higher-priority map has distinct keys (as every Go map does):
every key of `from` holds the recursive merge of the two values (a missing
lower-priority key reading as nil), and every other key keeps the
accumulator's binding. -/
theorem mergeEntries_spec (strict : Bool) :
    ∀ (fm acc mm : List (String × Node)),
      (fm.map Prod.fst).Nodup →
      mergeEntries strict acc fm = .ok mm →
      (∀ k v, mapGet fm k = some v →
        ∃ m, merge strict ((mapGet acc k).getD .null) v = .ok m ∧ mapGet mm k = some m) ∧
      (∀ k, mapGet fm k = none → mapGet mm k = mapGet acc k) := by
  intro fm
  induction fm with
  | nil =>
      intro acc mm _ hok
      simp [mergeEntries] at hok
      subst hok
      exact ⟨fun k v hkv => by simp [mapGet] at hkv, fun k _ => rfl⟩
  | cons kv rest ih =>
      intro acc mm hnd hok
      obtain ⟨k0, v0⟩ := kv
      simp at hnd
      cases hm0 : merge strict ((mapGet acc k0).getD .null) v0 with
      | error e => simp [mergeEntries, hm0] at hok
      | ok m0 =>
          simp only [mergeEntries, hm0] at hok
          obtain ⟨ih1, ih2⟩ := ih (mapSet acc k0 m0) mm hnd.2 hok
          constructor
          · intro k v hkv
            by_cases hk : k0 = k
            · subst hk
              simp [mapGet] at hkv
              subst hkv
              refine ⟨m0, hm0, ?_⟩
              have hnone : mapGet rest k0 = none :=
                mapGet_eq_none_of_not_mem _ _ (by simpa using hnd.1)
              rw [ih2 k0 hnone, mapGet_mapSet]
              simp
            · simp [mapGet, hk] at hkv
              obtain ⟨m, hm, hmm⟩ := ih1 k v hkv
              refine ⟨m, ?_, hmm⟩
              rwa [mapGet_mapSet, if_neg (fun hh => hk hh.symm)] at hm
          · intro k hk
            by_cases h2 : k0 = k
            · simp [mapGet, h2] at hk
            · simp [mapGet, h2] at hk
              rw [ih2 k hk, mapGet_mapSet, if_neg (fun hh => h2 hh.symm)]

/-- Modelled from the spec: populating a string destination (config.go
`populate`, lines 162-183, serializes the subtree and lets gopkg.in/yaml.v2
decode it into the destination; the decode step is not under src/).  Per
spec section 4.D an explicit Null leaves the destination at its zero value,
the empty string, and a string scalar replaces it; other shapes are
immaterial to the claims settled here. -/
def populateString : Node → Except String String
  | .null => .ok ""
  | .scalar (.str s) => .ok s
  | _ => .error "incompatible type"

/-- Merging an explicitly-null higher-priority node erases the lower layer
(merge.go lines 133-136). -/
theorem merge_null_from (strict : Bool) (L : Node) :
    merge strict L Node.null = .ok Node.null := by
  cases L <;> simp [merge, isNull]

/-- If the higher-priority tree holds an explicit Null at a path, any
successful merge still holds that Null at the same path. -/
theorem merge_keeps_null_from (strict : Bool) :
    ∀ (p : List String) (A B M : Node), WF B → merge strict A B = .ok M →
      atPath B p = some Node.null → atPath M p = some Node.null := by
  intro p
  induction p with
  | nil =>
      intro A B M _ hok hB
      have hBnull : B = Node.null := by simpa [atPath] using hB
      subst hBnull
      rw [merge_null_from] at hok
      simp at hok
      subst hok
      simp [atPath]
  | cons k rest ih =>
      intro A B M hwf hok hB
      cases B with
      | null => simp [atPath] at hB
      | scalar v => simp [atPath] at hB
      | seq xs => simp [atPath] at hB
      | map bm =>
          cases hbk : mapGet bm k with
          | none => simp [atPath, hbk] at hB
          | some B2 =>
              simp only [atPath, hbk] at hB
              cases hwf with
              | map _ hnd hvals =>
                  have hwfB2 : WF B2 := hvals _ (mapGet_mem _ _ _ hbk)
                  cases A with
                  | null =>
                      simp [merge, isNull] at hok
                      subst hok
                      simp [atPath, hbk, hB]
                  | scalar va =>
                      by_cases hs : strict
                      · subst hs
                        simp [merge, isNull, isScalar, isMapping, isSequence] at hok
                      · simp [hs] at *
                        simp [merge, isNull, isScalar, isMapping, isSequence] at hok
                        subst hok
                        simp [atPath, hbk, hB]
                  | seq xa =>
                      by_cases hs : strict
                      · subst hs
                        simp [merge, isNull, isScalar, isMapping, isSequence] at hok
                      · simp [hs] at *
                        simp [merge, isNull, isScalar, isMapping, isSequence] at hok
                        subst hok
                        simp [atPath, hbk, hB]
                  | map am =>
                      have hok2 : (mergeEntries strict am bm).map Node.map = .ok M := by
                        simpa [merge, isNull, isScalar, isMapping, isSequence] using hok
                      cases hmm : mergeEntries strict am bm with
                      | error e => rw [hmm] at hok2; simp [Except.map] at hok2
                      | ok mm =>
                          rw [hmm] at hok2
                          simp [Except.map] at hok2
                          obtain ⟨h1, _⟩ := mergeEntries_spec strict bm am mm hnd hmm
                          obtain ⟨m, hm, hmg⟩ := h1 k B2 hbk
                          have : atPath m rest = some Node.null :=
                            ih ((mapGet am k).getD Node.null) B2 m hwfB2 hm hB
                          rw [← hok2]
                          simp [atPath, hmg, this]

/-- Claim C1: merging two mappings yields a mapping that contains every key
of the lower-priority map; each key present in the higher-priority map
holds the recursive merge of the two values (a lower-priority key that is
missing reads as nil), and keys of the lower map absent from the higher one
keep the lower value.  Merging two sequences returns the higher-priority
sequence exactly, never a concatenation or element-wise merge. -/
theorem c1_merge_mapping_and_sequence (strict : Bool) (lm hm : List (String × Node))
    (M : Node) (hnd : (hm.map Prod.fst).Nodup)
    (hok : merge strict (Node.map lm) (Node.map hm) = .ok M) :
    (∃ mm, M = Node.map mm ∧
      (∀ k, (mapGet lm k).isSome → (mapGet mm k).isSome) ∧
      (∀ k v, mapGet hm k = some v →
        ∃ m, merge strict ((mapGet lm k).getD Node.null) v = .ok m ∧ mapGet mm k = some m) ∧
      (∀ k, mapGet hm k = none → mapGet mm k = mapGet lm k)) ∧
    (∀ ls hs : List Node, merge strict (Node.seq ls) (Node.seq hs) = .ok (Node.seq hs)) := by
  constructor
  · have hok2 : (mergeEntries strict lm hm).map Node.map = .ok M := by
      simpa [merge, isNull, isScalar, isMapping, isSequence] using hok
    cases hmm : mergeEntries strict lm hm with
    | error e => rw [hmm] at hok2; simp [Except.map] at hok2
    | ok mm =>
        rw [hmm] at hok2
        simp [Except.map] at hok2
        obtain ⟨h1, h2⟩ := mergeEntries_spec strict hm lm mm hnd hmm
        refine ⟨mm, hok2.symm, ?_, h1, h2⟩
        intro k hk
        cases hg : mapGet hm k with
        | some v =>
            obtain ⟨m, _, hm2⟩ := h1 k v hg
            simp [hm2]
        | none =>
            rw [h2 k hg]
            exact hk
  · intro ls hs
    simp [merge, isNull, isScalar, isMapping, isSequence]

/-- Witness for C1 on the spec's concrete scenario: practical cars merged
deeply, fun cars replaced wholesale. -/
theorem c1_witness :
    (([("honda", Node.scalar (Prim.str "civic")),
       ("nissan", Node.scalar (Prim.str "altima"))].map Prod.fst).Nodup) ∧
    merge true
      (Node.map [("toyota", Node.scalar (Prim.str "camry")),
                 ("honda", Node.scalar (Prim.str "accord"))])
      (Node.map [("honda", Node.scalar (Prim.str "civic")),
                 ("nissan", Node.scalar (Prim.str "altima"))]) =
      .ok (Node.map [("toyota", Node.scalar (Prim.str "camry")),
                     ("honda", Node.scalar (Prim.str "civic")),
                     ("nissan", Node.scalar (Prim.str "altima"))]) ∧
    ((∃ mm, Node.map [("toyota", Node.scalar (Prim.str "camry")),
                      ("honda", Node.scalar (Prim.str "civic")),
                      ("nissan", Node.scalar (Prim.str "altima"))] = Node.map mm ∧
      (∀ k, (mapGet [("toyota", Node.scalar (Prim.str "camry")),
                     ("honda", Node.scalar (Prim.str "accord"))] k).isSome →
        (mapGet mm k).isSome) ∧
      (∀ k v, mapGet [("honda", Node.scalar (Prim.str "civic")),
                      ("nissan", Node.scalar (Prim.str "altima"))] k = some v →
        ∃ m, merge true ((mapGet [("toyota", Node.scalar (Prim.str "camry")),
                                  ("honda", Node.scalar (Prim.str "accord"))] k).getD Node.null)
              v = .ok m ∧ mapGet mm k = some m) ∧
      (∀ k, mapGet [("honda", Node.scalar (Prim.str "civic")),
                    ("nissan", Node.scalar (Prim.str "altima"))] k = none →
        mapGet mm k = mapGet [("toyota", Node.scalar (Prim.str "camry")),
                              ("honda", Node.scalar (Prim.str "accord"))] k)) ∧
    (∀ ls hs : List Node, merge true (Node.seq ls) (Node.seq hs) = .ok (Node.seq hs))) := by
  have hnd : (([("honda", Node.scalar (Prim.str "civic")),
       ("nissan", Node.scalar (Prim.str "altima"))].map Prod.fst).Nodup) := by simp
  have hok : merge true
      (Node.map [("toyota", Node.scalar (Prim.str "camry")),
                 ("honda", Node.scalar (Prim.str "accord"))])
      (Node.map [("honda", Node.scalar (Prim.str "civic")),
                 ("nissan", Node.scalar (Prim.str "altima"))]) =
      .ok (Node.map [("toyota", Node.scalar (Prim.str "camry")),
                     ("honda", Node.scalar (Prim.str "civic")),
                     ("nissan", Node.scalar (Prim.str "altima"))]) := by
    rfl
  exact ⟨hnd, hok, c1_merge_mapping_and_sequence true _ _ _ hnd hok⟩

/-- Claim C2: a higher-priority explicit null erases any non-null
lower-priority node; after provider construction the path holding that
Null is still found, so HasValue reports true, and populating a string
destination from the Null yields the empty string. -/
theorem c2_explicit_null_erases (strict : Bool) (L A B M : Node) (p : List String)
    (_hL : L ≠ Node.null) (hwfB : WF B)
    (hM : mergeSources strict [A, B] = .ok M)
    (hpB : atPath B p = some Node.null) :
    merge strict L Node.null = .ok Node.null ∧
    atPath M p = some Node.null ∧
    hasValueAt M p = true ∧
    populateString Node.null = .ok "" := by
  have h1 : merge strict Node.null A = .ok A := by simp [merge, isNull]
  cases hAB : merge strict A B with
  | error e =>
      exfalso
      simp [mergeSources, mergeFold, h1, hAB] at hM
  | ok m =>
      have hMm : m = M := by
        simpa [mergeSources, mergeFold, h1, hAB] using hM
      subst hMm
      have hnull := merge_keeps_null_from strict p A B m hwfB hAB hpB
      exact ⟨merge_null_from strict L, hnull, by simp [hasValueAt, hnull], rfl⟩

/-- Witness for C2 on the spec's concrete scenario: `antique: model_t`
overridden by `antique: null`. -/
theorem c2_witness :
    (Node.scalar (Prim.str "model_t") ≠ Node.null) ∧
    WF (Node.map [("antique", Node.null)]) ∧
    mergeSources true [Node.map [("antique", Node.scalar (Prim.str "model_t"))],
                       Node.map [("antique", Node.null)]] =
      .ok (Node.map [("antique", Node.null)]) ∧
    atPath (Node.map [("antique", Node.null)]) ["antique"] = some Node.null ∧
    (merge true (Node.scalar (Prim.str "model_t")) Node.null = .ok Node.null ∧
     atPath (Node.map [("antique", Node.null)]) ["antique"] = some Node.null ∧
     hasValueAt (Node.map [("antique", Node.null)]) ["antique"] = true ∧
     populateString Node.null = .ok "") := by
  have hL : (Node.scalar (Prim.str "model_t") ≠ Node.null) := by simp
  have hwf : WF (Node.map [("antique", Node.null)]) := by
    refine WF.map _ (by simp) ?_
    intro kv h
    simp at h
    rw [h]
    exact WF.null
  have hM : mergeSources true [Node.map [("antique", Node.scalar (Prim.str "model_t"))],
      Node.map [("antique", Node.null)]] = .ok (Node.map [("antique", Node.null)]) := rfl
  have hp : atPath (Node.map [("antique", Node.null)]) ["antique"] = some Node.null := rfl
  exact ⟨hL, hwf, hM, hp, c2_explicit_null_erases true _ _ _ _ _ hL hwf hM hp⟩

/-- Claim C3 counterexample: merging a sequence into a scalar in strict
mode produces the error text "can't merge a sequence into a scalar"
(merge.go line 152), not the claimed "cannot merge sequence into scalar". -/
theorem c3_counterexample :
    merge true (Node.scalar (Prim.str "x")) (Node.seq []) =
      .error ("can\x27t merge a sequence into a scalar") ∧
    merge true (Node.scalar (Prim.str "x")) (Node.seq []) ≠
      .error ("cannot merge sequence into scalar") := by
  refine ⟨rfl, ?_⟩
  intro h
  rw [show merge true (Node.scalar (Prim.str "x")) (Node.seq []) =
      .error ("can\x27t merge a sequence into a scalar") from rfl] at h
  simp at h

/-- Claim C3 (amended): for two nodes of differing categories, neither
being Null, strict-mode merge fails with the error "can't merge a
<descriptor of H> into a <descriptor of L>" where the descriptor is one of
scalar/sequence/mapping, and permissive-mode merge returns H. -/
theorem c3_type_mismatch (L H : Node)
    (hL : L ≠ Node.null) (hH : H ≠ Node.null) (hd : describe L ≠ describe H) :
    merge true L H =
      .error ("can\x27t merge a " ++ describe H ++ " into a " ++ describe L) ∧
    merge false L H = .ok H := by
  cases L <;> cases H <;>
    simp_all [merge, describe, isNull, isScalar, isMapping, isSequence]

/-- Witness for C3's amended statement: sequence into scalar. -/
theorem c3_witness :
    (Node.scalar (Prim.str "x") ≠ Node.null) ∧
    (Node.seq [] ≠ Node.null) ∧
    (describe (Node.scalar (Prim.str "x")) ≠ describe (Node.seq [])) ∧
    (merge true (Node.scalar (Prim.str "x")) (Node.seq []) =
      .error ("can\x27t merge a " ++ describe (Node.seq []) ++ " into a " ++
        describe (Node.scalar (Prim.str "x"))) ∧
     merge false (Node.scalar (Prim.str "x")) (Node.seq []) = .ok (Node.seq [])) := by
  have h1 : (Node.scalar (Prim.str "x") ≠ Node.null) := by simp
  have h2 : (Node.seq [] ≠ Node.null) := by simp
  have h3 : (describe (Node.scalar (Prim.str "x")) ≠ describe (Node.seq [])) := by
    rw [show describe (Node.scalar (Prim.str "x")) = "scalar" from rfl,
        show describe (Node.seq []) = "sequence" from rfl]
    simp
  exact ⟨h1, h2, h3, c3_type_mismatch _ _ h1 h2 h3⟩

/-- Strict and permissive merges agree whenever the strict merge does not
reject: the strict flag is only read on the type-mismatch branch. -/
theorem merge_agree_aux : ∀ n : Nat,
    (∀ into frm M, sizeOf frm ≤ n →
      merge true into frm = .ok M → merge false into frm = .ok M) ∧
    (∀ (l acc mm : List (String × Node)), sizeOf l ≤ n →
      mergeEntries true acc l = .ok mm → mergeEntries false acc l = .ok mm) := by
  intro n
  induction n using Nat.strong_induction_on with
  | _ n ih =>
      constructor
      · intro into frm M hsz hok
        cases into with
        | null => simpa [merge, isNull] using hok
        | scalar v =>
            cases frm with
            | null => simpa [merge, isNull] using hok
            | scalar w => simpa [merge, isNull, isScalar, isMapping, isSequence] using hok
            | seq xs => simp [merge, isNull, isScalar, isMapping, isSequence] at hok
            | map fm => simp [merge, isNull, isScalar, isMapping, isSequence] at hok
        | seq xa =>
            cases frm with
            | null => simpa [merge, isNull] using hok
            | scalar w => simp [merge, isNull, isScalar, isMapping, isSequence] at hok
            | seq xs => simpa [merge, isNull, isScalar, isMapping, isSequence] using hok
            | map fm => simp [merge, isNull, isScalar, isMapping, isSequence] at hok
        | map im =>
            cases frm with
            | null => simpa [merge, isNull] using hok
            | scalar w => simp [merge, isNull, isScalar, isMapping, isSequence] at hok
            | seq xs => simp [merge, isNull, isScalar, isMapping, isSequence] at hok
            | map fm =>
                have hok2 : (mergeEntries true im fm).map Node.map = .ok M := by
                  simpa [merge, isNull, isScalar, isMapping, isSequence] using hok
                cases hmm : mergeEntries true im fm with
                | error e => rw [hmm] at hok2; simp [Except.map] at hok2
                | ok mm =>
                    rw [hmm] at hok2
                    have hlt : sizeOf fm < n := by
                      have : sizeOf fm < sizeOf (Node.map fm) := by
                        simp only [Node.map.sizeOf_spec]; omega
                      omega
                    have h2 := (ih (sizeOf fm) hlt).2 fm im mm le_rfl hmm
                    simp only [merge, isNull, isScalar, isMapping, isSequence]
                    simpa [h2, Except.map] using hok2
      · intro l acc mm hsz hok
        cases l with
        | nil => simpa [mergeEntries] using hok
        | cons kv rest =>
            obtain ⟨k, v⟩ := kv
            cases hmv : merge true ((mapGet acc k).getD .null) v with
            | error e => simp [mergeEntries, hmv] at hok
            | ok m =>
                simp only [mergeEntries, hmv] at hok
                have hszv : sizeOf v < n := by
                  have : sizeOf v < sizeOf ((k, v) :: rest) := by
                    simp only [List.cons.sizeOf_spec, Prod.mk.sizeOf_spec]; omega
                  omega
                have hszr : sizeOf rest < n := by
                  have : sizeOf rest < sizeOf ((k, v) :: rest) := by
                    simp only [List.cons.sizeOf_spec]; omega
                  omega
                have hm2 := (ih (sizeOf v) hszv).1 _ v m le_rfl hmv
                have hr2 := (ih (sizeOf rest) hszr).2 rest (mapSet acc k m) mm le_rfl hok
                simp [mergeEntries, hm2, hr2]

theorem merge_agree (into frm M : Node) (h : merge true into frm = .ok M) :
    merge false into frm = .ok M :=
  (merge_agree_aux (sizeOf frm)).1 into frm M le_rfl h

/-- Claim C4: whenever strict-mode merging of a source list succeeds,
permissive-mode merging of the same sources produces exactly the same
merged tree, and hence the same result at every queried path. -/
theorem c4_strict_permissive_agree (srcs : List Node) (M : Node)
    (h : mergeSources true srcs = .ok M) :
    mergeSources false srcs = .ok M ∧
    (∀ p, (mergeSources false srcs).map (fun m => atPath m p) = .ok (atPath M p)) := by
  have hf : ∀ (l : List Node) (acc M2 : Node), mergeFold true acc l = .ok M2 →
      mergeFold false acc l = .ok M2 := by
    intro l
    induction l with
    | nil =>
        intro acc M2 h2
        simpa [mergeFold] using h2
    | cons s rest ih =>
        intro acc M2 h2
        cases hms : merge true acc s with
        | error e => simp [mergeFold, hms] at h2
        | ok m =>
            simp only [mergeFold, hms] at h2
            simp [mergeFold, merge_agree _ _ _ hms, ih _ _ h2]
  have h0 : mergeSources false srcs = .ok M := hf srcs Node.null M h
  exact ⟨h0, fun p => by simp [h0, Except.map]⟩

/-- Witness for C4 on a small two-source list with a deep-merged mapping. -/
theorem c4_witness :
    mergeSources true
      [Node.map [("a", Node.scalar (Prim.int 1))],
       Node.map [("a", Node.scalar (Prim.int 2)), ("b", Node.null)]] =
      .ok (Node.map [("a", Node.scalar (Prim.int 2)), ("b", Node.null)]) ∧
    (mergeSources false
      [Node.map [("a", Node.scalar (Prim.int 1))],
       Node.map [("a", Node.scalar (Prim.int 2)), ("b", Node.null)]] =
      .ok (Node.map [("a", Node.scalar (Prim.int 2)), ("b", Node.null)]) ∧
    (∀ p, (mergeSources false
      [Node.map [("a", Node.scalar (Prim.int 1))],
       Node.map [("a", Node.scalar (Prim.int 2)), ("b", Node.null)]]).map
        (fun m => atPath m p) =
      .ok (atPath (Node.map [("a", Node.scalar (Prim.int 2)), ("b", Node.null)]) p))) := by
  have h : mergeSources true
      [Node.map [("a", Node.scalar (Prim.int 1))],
       Node.map [("a", Node.scalar (Prim.int 2)), ("b", Node.null)]] =
      .ok (Node.map [("a", Node.scalar (Prim.int 2)), ("b", Node.null)]) := rfl
  exact ⟨h, c4_strict_permissive_agree _ _ h⟩

theorem mem_keys_mapSet (m : List (String × Node)) (k : String) (v : Node) (k2 : String)
    (h : k2 ∈ (mapSet m k v).map Prod.fst) : k2 ∈ m.map Prod.fst ∨ k2 = k := by
  induction m with
  | nil =>
      simp [mapSet] at h
      exact Or.inr h
  | cons kv rest ih =>
      obtain ⟨a, b⟩ := kv
      by_cases hk : a = k
      · rw [show mapSet ((a, b) :: rest) k v = (k, v) :: rest by simp [mapSet, hk]] at h
        rw [List.map_cons, List.mem_cons] at h
        cases h with
        | inl h2 => exact Or.inr h2
        | inr h2 => exact Or.inl (by rw [List.map_cons, List.mem_cons]; exact Or.inr h2)
      · rw [show mapSet ((a, b) :: rest) k v = (a, b) :: mapSet rest k v by
          simp [mapSet, hk]] at h
        rw [List.map_cons, List.mem_cons] at h
        cases h with
        | inl h2 =>
            exact Or.inl (by rw [List.map_cons, List.mem_cons]; exact Or.inl h2)
        | inr h2 =>
            cases ih h2 with
            | inl h3 => exact Or.inl (by rw [List.map_cons, List.mem_cons]; exact Or.inr h3)
            | inr h3 => exact Or.inr h3

theorem mapSet_keys_nodup (m : List (String × Node)) (k : String) (v : Node)
    (h : (m.map Prod.fst).Nodup) : ((mapSet m k v).map Prod.fst).Nodup := by
  induction m with
  | nil => simp [mapSet]
  | cons kv rest ih =>
      obtain ⟨a, b⟩ := kv
      rw [List.map_cons, List.nodup_cons] at h
      by_cases hk : a = k
      · rw [show mapSet ((a, b) :: rest) k v = (k, v) :: rest by simp [mapSet, hk]]
        rw [List.map_cons, List.nodup_cons]
        exact ⟨by rw [← hk]; exact h.1, h.2⟩
      · rw [show mapSet ((a, b) :: rest) k v = (a, b) :: mapSet rest k v by
          simp [mapSet, hk]]
        rw [List.map_cons, List.nodup_cons]
        refine ⟨?_, ih h.2⟩
        intro hmem
        cases mem_keys_mapSet rest k v a hmem with
        | inl h2 => exact h.1 h2
        | inr h2 => exact hk h2

theorem mem_mapSet (m : List (String × Node)) (k : String) (v : Node) (kv2 : String × Node)
    (h : kv2 ∈ mapSet m k v) : kv2 = (k, v) ∨ kv2 ∈ m := by
  induction m with
  | nil => simpa [mapSet] using h
  | cons kv rest ih =>
      obtain ⟨a, b⟩ := kv
      by_cases hk : a = k
      · rw [show mapSet ((a, b) :: rest) k v = (k, v) :: rest by simp [mapSet, hk]] at h
        rw [List.mem_cons] at h
        cases h with
        | inl h2 => exact Or.inl h2
        | inr h2 => exact Or.inr (List.mem_cons_of_mem _ h2)
      · rw [show mapSet ((a, b) :: rest) k v = (a, b) :: mapSet rest k v by
          simp [mapSet, hk]] at h
        rw [List.mem_cons] at h
        cases h with
        | inl h2 => exact Or.inr (h2 ▸ List.mem_cons_self _ _)
        | inr h2 =>
            cases ih h2 with
            | inl h3 => exact Or.inl h3
            | inr h3 => exact Or.inr (List.mem_cons_of_mem _ h3)

/-- A successful merge of well-formed trees is well-formed: `mergeMapping`
only ever writes through Go map assignment, which keeps keys distinct. -/
theorem wf_merge_aux : ∀ n : Nat,
    (∀ (strict : Bool) (into frm M : Node), sizeOf frm ≤ n → WF into → WF frm →
      merge strict into frm = .ok M → WF M) ∧
    (∀ (strict : Bool) (l acc mm : List (String × Node)), sizeOf l ≤ n →
      (acc.map Prod.fst).Nodup → (∀ kv ∈ acc, WF kv.2) → (∀ kv ∈ l, WF kv.2) →
      mergeEntries strict acc l = .ok mm →
      (mm.map Prod.fst).Nodup ∧ ∀ kv ∈ mm, WF kv.2) := by
  intro n
  induction n using Nat.strong_induction_on with
  | _ n ih =>
      constructor
      · intro strict into frm M hsz hwi hwf hok
        cases into with
        | null =>
            simp [merge, isNull] at hok
            exact hok ▸ hwf
        | scalar v =>
            cases frm with
            | null =>
                simp [merge, isNull] at hok
                exact hok ▸ WF.null
            | scalar w =>
                simp [merge, isNull, isScalar, isMapping, isSequence] at hok
                exact hok ▸ hwf
            | seq xs =>
                cases strict <;>
                  simp [merge, isNull, isScalar, isMapping, isSequence] at hok
                exact hok ▸ hwf
            | map fm =>
                cases strict <;>
                  simp [merge, isNull, isScalar, isMapping, isSequence] at hok
                exact hok ▸ hwf
        | seq xa =>
            cases frm with
            | null =>
                simp [merge, isNull] at hok
                exact hok ▸ WF.null
            | scalar w =>
                cases strict <;>
                  simp [merge, isNull, isScalar, isMapping, isSequence] at hok
                exact hok ▸ hwf
            | seq xs =>
                simp [merge, isNull, isScalar, isMapping, isSequence] at hok
                exact hok ▸ hwf
            | map fm =>
                cases strict <;>
                  simp [merge, isNull, isScalar, isMapping, isSequence] at hok
                exact hok ▸ hwf
        | map im =>
            cases frm with
            | null =>
                simp [merge, isNull] at hok
                exact hok ▸ WF.null
            | scalar w =>
                cases strict <;>
                  simp [merge, isNull, isScalar, isMapping, isSequence] at hok
                exact hok ▸ hwf
            | seq xs =>
                cases strict <;>
                  simp [merge, isNull, isScalar, isMapping, isSequence] at hok
                exact hok ▸ hwf
            | map fm =>
                have hok2 : (mergeEntries strict im fm).map Node.map = .ok M := by
                  simpa [merge, isNull, isScalar, isMapping, isSequence] using hok
                cases hmm : mergeEntries strict im fm with
                | error e => rw [hmm] at hok2; simp [Except.map] at hok2
                | ok mm =>
                    rw [hmm] at hok2
                    simp [Except.map] at hok2
                    have hlt : sizeOf fm < n := by
                      have : sizeOf fm < sizeOf (Node.map fm) := by
                        simp only [Node.map.sizeOf_spec]; omega
                      omega
                    cases hwi with
                    | map _ hnd1 hv1 =>
                        cases hwf with
                        | map _ hnd2 hv2 =>
                            have h2 := (ih (sizeOf fm) hlt).2 strict fm im mm le_rfl
                              hnd1 hv1 hv2 hmm
                            exact hok2 ▸ WF.map mm h2.1 h2.2
      · intro strict l acc mm hsz hnd hwacc hwl hok
        cases l with
        | nil =>
            simp [mergeEntries] at hok
            exact hok ▸ ⟨hnd, hwacc⟩
        | cons kv rest =>
            obtain ⟨k, v⟩ := kv
            cases hmv : merge strict ((mapGet acc k).getD .null) v with
            | error e => simp [mergeEntries, hmv] at hok
            | ok m =>
                simp only [mergeEntries, hmv] at hok
                have hszv : sizeOf v < n := by
                  have : sizeOf v < sizeOf ((k, v) :: rest) := by
                    simp only [List.cons.sizeOf_spec, Prod.mk.sizeOf_spec]; omega
                  omega
                have hszr : sizeOf rest < n := by
                  have : sizeOf rest < sizeOf ((k, v) :: rest) := by
                    simp only [List.cons.sizeOf_spec]; omega
                  omega
                have hwold : WF ((mapGet acc k).getD .null) := by
                  cases hg : mapGet acc k with
                  | none => exact WF.null
                  | some x => exact hwacc _ (mapGet_mem _ _ _ hg)
                have hwv : WF v := hwl _ (List.mem_cons_self _ _)
                have hwm : WF m :=
                  (ih (sizeOf v) hszv).1 strict _ v m le_rfl hwold hwv hmv
                refine (ih (sizeOf rest) hszr).2 strict rest (mapSet acc k m) mm le_rfl
                  (mapSet_keys_nodup _ _ _ hnd) ?_
                  (fun kv2 h2 => hwl _ (List.mem_cons_of_mem _ h2)) hok
                intro kv2 h2
                cases mem_mapSet acc k m kv2 h2 with
                | inl h3 => exact h3 ▸ hwm
                | inr h3 => exact hwacc _ h3

theorem wf_merge (strict : Bool) (into frm M : Node) (hwi : WF into) (hwf : WF frm)
    (h : merge strict into frm = .ok M) : WF M :=
  (wf_merge_aux (sizeOf frm)).1 strict into frm M le_rfl hwi hwf h

mutual

/-- Modelled from the spec: the decode-into-destination step of Populate.
config.go `populate` (lines 162-183) re-serializes the subtree and has
gopkg.in/yaml.v2 decode it into a possibly already-populated destination;
that decoder is not part of this repository.  Per spec sections 4.F and
4.D: an explicit null resets the destination to its zero value, scalars
and sequences replace it wholesale, and mappings are decoded key by key
into the existing destination (absent keys keep their destination value). -/
def popTree (dst src : Node) : Node :=
  match src with
  | .null => .null
  | .scalar v => .scalar v
  | .seq xs => .seq xs
  | .map fm =>
      match dst with
      | .map dm => .map (popEntries dm fm)
      | _ => .map (popEntries [] fm)

/-- Key-by-key decode of a source mapping into a destination mapping. -/
def popEntries (dm : List (String × Node)) : List (String × Node) → List (String × Node)
  | [] => dm
  | (k, v) :: rest => popEntries (mapSet dm k (popTree ((mapGet dm k).getD .null) v)) rest

end

theorem mapSet_append (m : List (String × Node)) (k : String) (v : Node)
    (h : mapGet m k = none) : mapSet m k v = m ++ [(k, v)] := by
  induction m with
  | nil => simp [mapSet]
  | cons kv rest ih =>
      obtain ⟨a, b⟩ := kv
      simp only [mapGet] at h
      by_cases hk : a = k
      · simp [hk] at h
      · simp only [mapSet, if_neg hk, List.cons_append, List.cons.injEq, true_and]
        exact ih (by simpa [hk] using h)

theorem mapGet_append_of_ne (dm : List (String × Node)) (k k2 : String) (v : Node)
    (h1 : mapGet dm k2 = none) (h2 : ¬k = k2) : mapGet (dm ++ [(k, v)]) k2 = none := by
  induction dm with
  | nil => simp [mapGet, h2]
  | cons kv rest ih =>
      obtain ⟨a, b⟩ := kv
      simp only [mapGet] at h1 ⊢
      by_cases hk : a = k2
      · simp [hk] at h1
      · simp only [List.cons_append, mapGet, if_neg hk] at *
        exact ih (by simpa [hk] using h1)

/-- Populating a zero (nil) destination reproduces a well-formed source
tree exactly. -/
theorem pop_null_aux : ∀ n : Nat,
    (∀ src, sizeOf src ≤ n → WF src → popTree Node.null src = src) ∧
    (∀ (l dm : List (String × Node)), sizeOf l ≤ n → (l.map Prod.fst).Nodup →
      (∀ kv ∈ l, WF kv.2) → (∀ k2 ∈ l.map Prod.fst, mapGet dm k2 = none) →
      popEntries dm l = dm ++ l) := by
  intro n
  induction n using Nat.strong_induction_on with
  | _ n ih =>
      constructor
      · intro src hsz hwf
        cases src with
        | null => rfl
        | scalar v => rfl
        | seq xs => rfl
        | map fm =>
            have hlt : sizeOf fm < n := by
              have : sizeOf fm < sizeOf (Node.map fm) := by
                simp only [Node.map.sizeOf_spec]; omega
              omega
            cases hwf with
            | map _ hnd hv =>
                have h2 := (ih (sizeOf fm) hlt).2 fm [] le_rfl hnd hv
                  (fun k2 _ => by simp [mapGet])
                simp [popTree, h2]
      · intro l dm hsz hnd hwl hdis
        cases l with
        | nil => simp [popEntries]
        | cons kv rest =>
            obtain ⟨k, v⟩ := kv
            have hszv : sizeOf v < n := by
              have : sizeOf v < sizeOf ((k, v) :: rest) := by
                simp only [List.cons.sizeOf_spec, Prod.mk.sizeOf_spec]; omega
              omega
            have hszr : sizeOf rest < n := by
              have : sizeOf rest < sizeOf ((k, v) :: rest) := by
                simp only [List.cons.sizeOf_spec]; omega
              omega
            have hgk : mapGet dm k = none :=
              hdis k (by rw [List.map_cons]; exact List.mem_cons_self _ _)
            have hpv : popTree Node.null v = v :=
              (ih (sizeOf v) hszv).1 v le_rfl (hwl _ (List.mem_cons_self _ _))
            rw [List.map_cons, List.nodup_cons] at hnd
            have hrest := (ih (sizeOf rest) hszr).2 rest (dm ++ [(k, v)]) le_rfl hnd.2
              (fun kv2 h2 => hwl _ (List.mem_cons_of_mem _ h2))
              (fun k2 h2 => mapGet_append_of_ne dm k k2 v
                (hdis k2 (by rw [List.map_cons]; exact List.mem_cons_of_mem _ h2))
                (fun hh => hnd.1 (hh ▸ h2)))
            simp only [popEntries, hgk, Option.getD_none, hpv, mapSet_append dm k v hgk,
              hrest, List.append_assoc, List.singleton_append]

theorem pop_null_id (src : Node) (h : WF src) : popTree Node.null src = src :=
  (pop_null_aux (sizeOf src)).1 src le_rfl h

/-- A successful permissive merge computes exactly the modelled
populate-into-destination transform. -/
theorem pop_merge_aux : ∀ n : Nat,
    (∀ dst src M, sizeOf src ≤ n → WF src → merge false dst src = .ok M →
      M = popTree dst src) ∧
    (∀ (l acc mm : List (String × Node)), sizeOf l ≤ n → (∀ kv ∈ l, WF kv.2) →
      mergeEntries false acc l = .ok mm → mm = popEntries acc l) := by
  intro n
  induction n using Nat.strong_induction_on with
  | _ n ih =>
      constructor
      · intro dst src M hsz hwf hok
        cases src with
        | null =>
            cases dst <;> simp [merge, isNull] at hok <;> simp [popTree, ← hok]
        | scalar v =>
            cases dst <;>
              simp [merge, isNull, isScalar, isMapping, isSequence] at hok <;>
              simp [popTree, ← hok]
        | seq xs =>
            cases dst <;>
              simp [merge, isNull, isScalar, isMapping, isSequence] at hok <;>
              simp [popTree, ← hok]
        | map fm =>
            have hlt : sizeOf fm < n := by
              have : sizeOf fm < sizeOf (Node.map fm) := by
                simp only [Node.map.sizeOf_spec]; omega
              omega
            have hid : popEntries [] fm = fm := by
              cases hwf with
              | map _ hnd hv =>
                  simpa using (pop_null_aux (sizeOf fm)).2 fm [] le_rfl hnd hv
                    (fun k2 _ => by simp [mapGet])
            cases dst with
            | null =>
                simp [merge, isNull] at hok
                simp [popTree, ← hok, hid]
            | scalar w =>
                simp [merge, isNull, isScalar, isMapping, isSequence] at hok
                simp [popTree, ← hok, hid]
            | seq xa =>
                simp [merge, isNull, isScalar, isMapping, isSequence] at hok
                simp [popTree, ← hok, hid]
            | map dm =>
                have hok2 : (mergeEntries false dm fm).map Node.map = .ok M := by
                  simpa [merge, isNull, isScalar, isMapping, isSequence] using hok
                cases hmm : mergeEntries false dm fm with
                | error e => rw [hmm] at hok2; simp [Except.map] at hok2
                | ok mm =>
                    rw [hmm] at hok2
                    simp [Except.map] at hok2
                    cases hwf with
                    | map _ hnd hv =>
                        have h2 := (ih (sizeOf fm) hlt).2 fm dm mm le_rfl hv hmm
                        simp [popTree, ← hok2, h2]
      · intro l acc mm hsz hwl hok
        cases l with
        | nil =>
            simp [mergeEntries] at hok
            simp [popEntries, hok]
        | cons kv rest =>
            obtain ⟨k, v⟩ := kv
            cases hmv : merge false ((mapGet acc k).getD .null) v with
            | error e => simp [mergeEntries, hmv] at hok
            | ok m =>
                simp only [mergeEntries, hmv] at hok
                have hszv : sizeOf v < n := by
                  have : sizeOf v < sizeOf ((k, v) :: rest) := by
                    simp only [List.cons.sizeOf_spec, Prod.mk.sizeOf_spec]; omega
                  omega
                have hszr : sizeOf rest < n := by
                  have : sizeOf rest < sizeOf ((k, v) :: rest) := by
                    simp only [List.cons.sizeOf_spec]; omega
                  omega
                have hmp : m = popTree ((mapGet acc k).getD .null) v :=
                  (ih (sizeOf v) hszv).1 _ v m le_rfl (hwl _ (List.mem_cons_self _ _)) hmv
                have hrp := (ih (sizeOf rest) hszr).2 rest (mapSet acc k m) mm le_rfl
                  (fun kv2 h2 => hwl _ (List.mem_cons_of_mem _ h2)) hok
                simp only [popEntries, ← hmp, hrp]

theorem merge_false_pop (dst src M : Node) (hwf : WF src)
    (h : merge false dst src = .ok M) : M = popTree dst src :=
  (pop_merge_aux (sizeOf src)).1 dst src M le_rfl hwf h

/-- Claim C5: when merging two sources succeeds, populating a zero
destination from the merged configuration agrees with populating from the
lower-priority source first and re-populating that result from the
higher-priority source. -/
theorem c5_populate_merge_equiv (strict : Bool) (A B M : Node)
    (hA : WF A) (hB : WF B) (hok : merge strict A B = .ok M) :
    popTree Node.null M = popTree (popTree Node.null A) B := by
  have hfalse : merge false A B = .ok M := by
    cases strict
    · exact hok
    · exact merge_agree _ _ _ hok
  have hM : M = popTree A B := merge_false_pop _ _ _ hB hfalse
  have hWFM : WF M := wf_merge strict A B M hA hB hok
  rw [pop_null_id M hWFM, pop_null_id A hA]
  exact hM

/-- Witness for C5 on two small mapping sources. -/
theorem c5_witness :
    WF (Node.map [("x", Node.scalar (Prim.int 1))]) ∧
    WF (Node.map [("y", Node.scalar (Prim.int 2))]) ∧
    merge true (Node.map [("x", Node.scalar (Prim.int 1))])
      (Node.map [("y", Node.scalar (Prim.int 2))]) =
      .ok (Node.map [("x", Node.scalar (Prim.int 1)), ("y", Node.scalar (Prim.int 2))]) ∧
    popTree Node.null
      (Node.map [("x", Node.scalar (Prim.int 1)), ("y", Node.scalar (Prim.int 2))]) =
      popTree (popTree Node.null (Node.map [("x", Node.scalar (Prim.int 1))]))
        (Node.map [("y", Node.scalar (Prim.int 2))]) := by
  have hA : WF (Node.map [("x", Node.scalar (Prim.int 1))]) := by
    refine WF.map _ (by simp) ?_
    intro kv h
    simp at h
    rw [h]
    exact WF.scalar _
  have hB : WF (Node.map [("y", Node.scalar (Prim.int 2))]) := by
    refine WF.map _ (by simp) ?_
    intro kv h
    simp at h
    rw [h]
    exact WF.scalar _
  have hok : merge true (Node.map [("x", Node.scalar (Prim.int 1))])
      (Node.map [("y", Node.scalar (Prim.int 2))]) =
      .ok (Node.map [("x", Node.scalar (Prim.int 1)),
        ("y", Node.scalar (Prim.int 2))]) := rfl
  exact ⟨hA, hB, hok, c5_populate_merge_equiv true _ _ _ hA hB hok⟩

/-- A source does not disturb path `q`: walking `q` through it, every
visited node is a mapping and at some depth the next segment is absent.
Such a source can override nothing at `q`. -/
def Misses : Node → List String → Prop
  | _, [] => False
  | n, k :: rest =>
      ∃ m, n = Node.map m ∧
        (mapGet m k = none ∨ ∃ n2, mapGet m k = some n2 ∧ Misses n2 rest)

/-- An explicit Null at a path in the accumulated merge survives a
higher-priority source that misses the path. -/
theorem merge_missing_keeps_null (strict : Bool) :
    ∀ (p : List String) (A B M : Node), WF B → Misses B p →
      merge strict A B = .ok M → atPath A p = some Node.null →
      atPath M p = some Node.null := by
  intro p
  induction p with
  | nil =>
      intro A B M _ hmiss _ _
      simp [Misses] at hmiss
  | cons k rest ih =>
      intro A B M hwf hmiss hok hA
      obtain ⟨bm, rfl, hbk⟩ := hmiss
      cases A with
      | null => simp [atPath] at hA
      | scalar v => simp [atPath] at hA
      | seq xs => simp [atPath] at hA
      | map am =>
          cases hak : mapGet am k with
          | none => simp [atPath, hak] at hA
          | some A2 =>
              simp only [atPath, hak] at hA
              have hok2 : (mergeEntries strict am bm).map Node.map = .ok M := by
                simpa [merge, isNull, isScalar, isMapping, isSequence] using hok
              cases hmm : mergeEntries strict am bm with
              | error e => rw [hmm] at hok2; simp [Except.map] at hok2
              | ok mm =>
                  rw [hmm] at hok2
                  simp [Except.map] at hok2
                  cases hwf with
                  | map _ hnd hv =>
                      obtain ⟨h1, h2⟩ := mergeEntries_spec strict bm am mm hnd hmm
                      cases hbk with
                      | inl hnone =>
                          have hsame := h2 k hnone
                          rw [← hok2]
                          simp [atPath, hsame, hak, hA]
                      | inr hsome =>
                          obtain ⟨B2, hB2, hmiss2⟩ := hsome
                          obtain ⟨m, hm, hmg⟩ := h1 k B2 hB2
                          rw [hak] at hm
                          have hnull := ih A2 B2 m (hv _ (mapGet_mem _ _ _ hB2)) hmiss2
                            (by simpa using hm) hA
                          rw [← hok2]
                          simp [atPath, hmg, hnull]

theorem mergeFold_append (strict : Bool) (l1 l2 : List Node) :
    ∀ acc, mergeFold strict acc (l1 ++ l2) =
      match mergeFold strict acc l1 with
      | .error e => .error e
      | .ok m => mergeFold strict m l2 := by
  induction l1 with
  | nil => intro acc; simp [mergeFold]
  | cons s rest ih =>
      intro acc
      cases hms : merge strict acc s with
      | error e => simp [mergeFold, hms]
      | ok m => simp [mergeFold, hms, ih m]

/-- config.go `Value.WithDefault` (lines 340-350): wrap the default under
the handle's path segments, innermost last. -/
def wrapPath (p : List String) (d : Node) : Node :=
  p.foldr (fun seg acc => Node.map [(seg, acc)]) d

/-- config.go `withDefault` (lines 185-224) at tree level: serialize the
default (wrapped by the path), prepend it to the retained raw sources as
the new lowest-priority source, and re-run the merge; the new provider
retains the extended source list. -/
def withDefaultV (strict : Bool) (raws : List Node) (p : List String) (d : Node) :
    Except String (List Node × Node) :=
  (mergeSources strict (wrapPath p d :: raws)).map (fun m => (wrapPath p d :: raws, m))

/-- Claim C9: WithDefault prepends the path-wrapped default as the new
lowest-priority source ahead of all retained raw sources and re-merges;
consequently an explicit null at a path in an existing source still erases
the defaulted value (provided the later sources do not touch that path),
rather than letting the default fill it. -/
theorem c9_with_default (strict : Bool) (pre post : List Node) (p q : List String)
    (d r : Node) (srcs : List Node) (M : Node)
    (hok : withDefaultV strict (pre ++ r :: post) p d = .ok (srcs, M))
    (hnull : atPath r q = some Node.null) (hwfr : WF r)
    (hpost : ∀ r2 ∈ post, WF r2 ∧ Misses r2 q) :
    srcs = wrapPath p d :: (pre ++ r :: post) ∧ atPath M q = some Node.null := by
  cases hms : mergeSources strict (wrapPath p d :: (pre ++ r :: post)) with
  | error e => simp [withDefaultV, hms, Except.map] at hok
  | ok m =>
      simp only [withDefaultV, hms, Except.map, Except.ok.injEq, Prod.mk.injEq] at hok
      obtain ⟨hsrcs, hmM⟩ := hok
      refine ⟨hsrcs.symm, ?_⟩
      rw [← hmM]
      have hsplit : mergeFold strict Node.null
          ((wrapPath p d :: pre) ++ (r :: post)) = .ok m := by
        simpa [mergeSources, List.cons_append] using hms
      rw [mergeFold_append] at hsplit
      cases hc0 : mergeFold strict Node.null (wrapPath p d :: pre) with
      | error e => rw [hc0] at hsplit; simp at hsplit
      | ok C0 =>
          rw [hc0] at hsplit
          simp only [mergeFold] at hsplit
          cases hc1 : merge strict C0 r with
          | error e => rw [hc1] at hsplit; simp at hsplit
          | ok C1 =>
              rw [hc1] at hsplit
              have hC1null : atPath C1 q = some Node.null :=
                merge_keeps_null_from strict q C0 r C1 hwfr hc1 hnull
              clear hc1 hc0 hsrcs hms
              induction post generalizing C1 with
              | nil =>
                  simp only [mergeFold, Except.ok.injEq] at hsplit
                  exact hsplit ▸ hC1null
              | cons s rest ihp =>
                  cases hms2 : merge strict C1 s with
                  | error e => simp [mergeFold, hms2] at hsplit
                  | ok C2 =>
                      simp only [mergeFold, hms2] at hsplit
                      have hC2 := merge_missing_keeps_null strict q C1 s C2
                        (hpost s (List.mem_cons_self _ _)).1
                        (hpost s (List.mem_cons_self _ _)).2 hms2 hC1null
                      exact ihp (fun r2 h => hpost r2 (List.mem_cons_of_mem _ h))
                        C2 hsplit hC2

/-- Witness for C9 on the `default overriden by nil` scenario: a source
holding `nothing: null` erases the default `something` applied at path
`nothing`. -/
theorem c9_witness :
    withDefaultV true ([] ++ Node.map [("nothing", Node.null)] :: []) ["nothing"]
      (Node.scalar (Prim.str "something")) =
      .ok ([Node.map [("nothing", Node.scalar (Prim.str "something"))],
            Node.map [("nothing", Node.null)]],
           Node.map [("nothing", Node.null)]) ∧
    atPath (Node.map [("nothing", Node.null)]) ["nothing"] = some Node.null ∧
    WF (Node.map [("nothing", Node.null)]) ∧
    (∀ r2 ∈ ([] : List Node), WF r2 ∧ Misses r2 ["nothing"]) ∧
    ([Node.map [("nothing", Node.scalar (Prim.str "something"))],
      Node.map [("nothing", Node.null)]] =
      wrapPath ["nothing"] (Node.scalar (Prim.str "something")) ::
        ([] ++ Node.map [("nothing", Node.null)] :: []) ∧
     atPath (Node.map [("nothing", Node.null)]) ["nothing"] = some Node.null) := by
  have hok : withDefaultV true ([] ++ Node.map [("nothing", Node.null)] :: []) ["nothing"]
      (Node.scalar (Prim.str "something")) =
      .ok ([Node.map [("nothing", Node.scalar (Prim.str "something"))],
            Node.map [("nothing", Node.null)]],
           Node.map [("nothing", Node.null)]) := rfl
  have hnull : atPath (Node.map [("nothing", Node.null)]) ["nothing"] = some Node.null := rfl
  have hwfr : WF (Node.map [("nothing", Node.null)]) := by
    refine WF.map _ (by simp) ?_
    intro kv h
    simp at h
    rw [h]
    exact WF.null
  have hpost : ∀ r2 ∈ ([] : List Node), WF r2 ∧ Misses r2 ["nothing"] := by
    intro r2 h
    simp at h
  exact ⟨hok, hnull, hwfr, hpost,
    c9_with_default true [] [] ["nothing"] ["nothing"] _ _ _ _ hok hnull hwfr hpost⟩

/-- Expansion failure kinds (spec section 7). -/
inductive ExpandErr where
  | undefinedVariable (name : String)
  | emptyDefault (key : String)
deriving DecidableEq

/-- Shell portable-name continuation characters (spec section 4.C). -/
def isNameChar (c : Char) : Bool := c.isAlpha || c.isDigit || c = '_'

/-- Shell portable-name start characters: may not be a digit. -/
def isNameStart (c : Char) : Bool := c.isAlpha || c = '_'

/-- `$NAME` resolution: the lookup must find the name. -/
def resolveName (lookup : String → Option String) (nm : List Char) :
    Except ExpandErr (List Char) :=
  match lookup (String.mk nm) with
  | some v => .ok v.data
  | none => .error (.undefinedVariable (String.mk nm))

/-- Split the bracket content at the first colon: KEY before, DEFAULT after. -/
def splitColon : List Char → Option (List Char × List Char)
  | [] => none
  | ':' :: r => some ([], r)
  | c :: r => (splitColon r).map (fun pr => (c :: pr.1, pr.2))

/-- `${KEY:DEFAULT}` resolution per spec section 4.C: a found key wins; an
empty DEFAULT is an EmptyDefault error; the two-byte DEFAULT literal of two
quote characters is replaced by the empty text (the repository's TestExpand
pins the resulting value at the key to nil); any other DEFAULT is used
verbatim. -/
def resolveBracket (lookup : String → Option String) (content : List Char) :
    Except ExpandErr (List Char) :=
  match splitColon content with
  | none =>
      match lookup (String.mk content) with
      | some v => .ok v.data
      | none => .error (.undefinedVariable (String.mk content))
  | some (key, dflt) =>
      match lookup (String.mk key) with
      | some v => .ok v.data
      | none =>
          if dflt = [] then .error (.emptyDefault (String.mk key))
          else if dflt = ['"', '"'] then .ok []
          else .ok dflt

/-- State of the streaming transform between bytes: the bytes of a possibly
incomplete token are withheld, which is exactly the transformer's
"need more input" behavior at a chunk boundary. -/
inductive EState where
  | plain
  | dollar
  | name (acc : List Char)
  | brace (acc : List Char)

/-- Modelled from the spec: the expansion transform's per-byte step
(expand.go's expandTransformer/newExpandTransformer are not under src/;
spec section 4.C fixes the recognized forms `$NAME`, `${KEY:DEFAULT}`,
`$$`, and that an unrecognized `$` form is preserved). -/
def step (lookup : String → Option String) : EState → Char → Except ExpandErr (EState × List Char)
  | .plain, c => if c = '$' then .ok (.dollar, []) else .ok (.plain, [c])
  | .dollar, c =>
      if c = '$' then .ok (.plain, ['$'])
      else if c = '\x7b' then .ok (.brace [], [])
      else if isNameStart c then .ok (.name [c], [])
      else .ok (.plain, ['$', c])
  | .name acc, c =>
      if isNameChar c then .ok (.name (acc ++ [c]), [])
      else
        match resolveName lookup acc with
        | .error e => .error e
        | .ok v => if c = '$' then .ok (.dollar, v) else .ok (.plain, v ++ [c])
  | .brace acc, c =>
      if c = '\x7d' then
        match resolveBracket lookup acc with
        | .error e => .error e
        | .ok v => .ok (.plain, v)
      else .ok (.brace (acc ++ [c]), [])

/-- End of input: a lone `$` and an unterminated `${...` are preserved, and
a trailing `$NAME` resolves (spec section 4.C; expand_test.go's
`ends_in_var` and `${parti` cases). -/
def flushState (lookup : String → Option String) : EState → Except ExpandErr (List Char)
  | .plain => .ok []
  | .dollar => .ok ['$']
  | .name acc =>
      match resolveName lookup acc with
      | .error e => .error e
      | .ok v => .ok v
  | .brace acc => .ok ('$' :: '\x7b' :: acc)

/-- Run the transform over one input buffer, returning the state carried to
the next buffer and the bytes emitted. -/
def feed (lookup : String → Option String) : EState → List Char → Except ExpandErr (EState × List Char)
  | st, [] => .ok (st, [])
  | st, c :: cs =>
      match step lookup st c with
      | .error e => .error e
      | .ok (st2, o) =>
          match feed lookup st2 cs with
          | .error e => .error e
          | .ok (st3, o2) => .ok (st3, o ++ o2)

/-- Run the transform over a sequence of input chunks (the reader may slice
the stream arbitrarily), flushing at end of input. -/
def runChunks (lookup : String → Option String) : EState → List (List Char) → Except ExpandErr (List Char)
  | st, [] => flushState lookup st
  | st, ch :: rest =>
      match feed lookup st ch with
      | .error e => .error e
      | .ok (st2, o) =>
          match runChunks lookup st2 rest with
          | .error e => .error e
          | .ok o2 => .ok (o ++ o2)

/-- Whole-input expansion: one buffer followed by the end-of-input flush. -/
def expand (lookup : String → Option String) (s : List Char) : Except ExpandErr (List Char) :=
  match feed lookup .plain s with
  | .error e => .error e
  | .ok (st, o) =>
      match flushState lookup st with
      | .error e => .error e
      | .ok o2 => .ok (o ++ o2)

/-- escape_test.go's `escapeVariables`: double every dollar byte. -/
def escape : List Char → List Char
  | [] => []
  | c :: r => if c = '$' then '$' :: '$' :: escape r else c :: escape r

theorem feed_append (lookup : String → Option String) (a b : List Char) :
    ∀ st, feed lookup st (a ++ b) =
      match feed lookup st a with
      | .error e => .error e
      | .ok (st2, o) =>
          match feed lookup st2 b with
          | .error e => .error e
          | .ok (st3, o2) => .ok (st3, o ++ o2) := by
  induction a with
  | nil =>
      intro st
      cases hb : feed lookup st b with
      | error e => simp [feed, hb]
      | ok pr => cases pr; simp [feed, hb]
  | cons c rest ih =>
      intro st
      rw [List.cons_append]
      cases hs : step lookup st c with
      | error e => simp [feed, hs]
      | ok pr =>
          obtain ⟨st2, o⟩ := pr
          simp only [feed, hs]
          rw [ih st2]
          cases hr : feed lookup st2 rest with
          | error e => simp
          | ok pr2 =>
              obtain ⟨st3, o2⟩ := pr2
              simp only
              cases hb : feed lookup st3 b with
              | error e => simp
              | ok pr3 =>
                  cases pr3
                  simp [List.append_assoc]

/-- Chunked processing equals whole-input processing: the state machine
commits output only when it cannot be affected by later bytes. -/
theorem runChunks_spec (lookup : String → Option String) :
    ∀ (chunks : List (List Char)) (st : EState),
      runChunks lookup st chunks =
        match feed lookup st chunks.flatten with
        | .error e => .error e
        | .ok (st2, o) =>
            match flushState lookup st2 with
            | .error e => .error e
            | .ok o2 => .ok (o ++ o2) := by
  intro chunks
  induction chunks with
  | nil =>
      intro st
      cases hf : flushState lookup st with
      | error e => simp [runChunks, List.flatten, feed, hf]
      | ok o2 => simp [runChunks, List.flatten, feed, hf]
  | cons ch rest ih =>
      intro st
      rw [show (ch :: rest).flatten = ch ++ rest.flatten from rfl]
      rw [feed_append lookup ch rest.flatten]
      cases hc : feed lookup st ch with
      | error e => simp [runChunks, hc]
      | ok pr =>
          obtain ⟨st2, o⟩ := pr
          simp only [runChunks, hc]
          rw [ih st2]
          cases hr : feed lookup st2 rest.flatten with
          | error e => simp
          | ok pr2 =>
              obtain ⟨st3, o2⟩ := pr2
              simp only
              cases hf : flushState lookup st3 with
              | error e => simp
              | ok o3 => simp [List.append_assoc]

/-- Feeding an escaped buffer from the plain state emits the original
bytes and ends in the plain state: every dollar is immediately paired. -/
theorem feed_escape (lookup : String → Option String) :
    ∀ s : List Char, feed lookup EState.plain (escape s) = .ok (.plain, s) := by
  intro s
  induction s with
  | nil => rfl
  | cons c rest ih =>
      by_cases hc : c = '$'
      · subst hc
        simp [escape, feed, step, ih]
      · simp [escape, hc, feed, step, ih]

/-- Claim C6: expanding the escape of any byte string returns exactly the
original string, for every lookup function and under any chunking of the
input. -/
theorem c6_expand_escape_roundtrip (lookup : String → Option String)
    (chunks : List (List Char)) (s : List Char)
    (h : chunks.flatten = escape s) :
    runChunks lookup EState.plain chunks = .ok s := by
  rw [runChunks_spec, h, feed_escape]
  simp [flushState]

/-- Witness for C6: the escaped form of `a$b` split across two chunks. -/
theorem c6_witness :
    ([['a', '$'], ['$', 'b']] : List (List Char)).flatten = escape ['a', '$', 'b'] ∧
    runChunks (fun _ => none) EState.plain [['a', '$'], ['$', 'b']] =
      .ok ['a', '$', 'b'] := by
  have h : ([['a', '$'], ['$', 'b']] : List (List Char)).flatten = escape ['a', '$', 'b'] := rfl
  exact ⟨h, c6_expand_escape_roundtrip (fun _ => none) _ _ h⟩

theorem splitColon_key (k d : List Char) (h : ∀ c ∈ k, c ≠ ':') :
    splitColon (k ++ ':' :: d) = some (k, d) := by
  induction k with
  | nil => rfl
  | cons c rest ih =>
      have hc : c ≠ ':' := h c (List.mem_cons_self _ _)
      rw [List.cons_append]
      rw [show splitColon (c :: (rest ++ ':' :: d)) =
        (splitColon (rest ++ ':' :: d)).map (fun pr => (c :: pr.1, pr.2)) by
          simp [splitColon, hc]]
      rw [ih (fun c2 h2 => h c2 (List.mem_cons_of_mem _ h2))]
      rfl

theorem feed_brace (lookup : String → Option String) (cs : List Char)
    (h : ∀ c ∈ cs, c ≠ '\x7d') :
    ∀ (acc rest : List Char), feed lookup (EState.brace acc) (cs ++ '\x7d' :: rest) =
      match resolveBracket lookup (acc ++ cs) with
      | .error e => .error e
      | .ok v =>
          match feed lookup .plain rest with
          | .error e => .error e
          | .ok (st, o) => .ok (st, v ++ o) := by
  induction cs with
  | nil =>
      intro acc rest
      rw [List.nil_append]
      simp only [feed, step, if_pos rfl]
      cases hrb : resolveBracket lookup (acc ++ []) with
      | error e => simp [List.append_nil] at hrb ⊢; simp [hrb]
      | ok v =>
          simp [List.append_nil] at hrb
          simp only [hrb]
          cases hf : feed lookup .plain rest with
          | error e => simp [hf]
          | ok pr => obtain ⟨st, o⟩ := pr; simp [hf]
  | cons c cs2 ih =>
      intro acc rest
      have hc : c ≠ '\x7d' := h c (List.mem_cons_self _ _)
      rw [List.cons_append]
      simp only [feed, step, if_neg hc]
      rw [ih (fun c2 h2 => h c2 (List.mem_cons_of_mem _ h2)) (acc ++ [c]) rest]
      rw [List.append_assoc, List.singleton_append]
      cases hrb : resolveBracket lookup (acc ++ c :: cs2) with
      | error e => simp
      | ok v =>
          cases hf : feed lookup .plain rest with
          | error e => simp
          | ok pr => obtain ⟨st, o⟩ := pr; simp

/-- The full `${KEY:DEFAULT}` token. -/
def bracketTok (k d : List Char) : List Char :=
  '$' :: '\x7b' :: (k ++ ':' :: (d ++ ['\x7d']))

theorem expand_bracket (lookup : String → Option String) (k d : List Char)
    (hkb : ∀ c ∈ k, c ≠ '\x7d') (hdb : ∀ c ∈ d, c ≠ '\x7d') :
    expand lookup (bracketTok k d) =
      match resolveBracket lookup (k ++ ':' :: d) with
      | .error e => .error e
      | .ok v => .ok v := by
  have hnb : ∀ c ∈ k ++ ':' :: d, c ≠ '\x7d' := by
    intro c hcm
    rw [List.mem_append, List.mem_cons] at hcm
    cases hcm with
    | inl h2 => exact hkb c h2
    | inr h2 =>
        cases h2 with
        | inl h3 => subst h3; simp
        | inr h3 => exact hdb c h3
  have h1 : ∀ l, feed lookup EState.plain ('$' :: '\x7b' :: l) =
      feed lookup (EState.brace []) l := by
    intro l
    cases hx : feed lookup (EState.brace []) l with
    | error e => simp [feed, step, hx]
    | ok pr => obtain ⟨st, o⟩ := pr; simp [feed, step, hx]
  have hshape : bracketTok k d = '$' :: '\x7b' :: ((k ++ ':' :: d) ++ '\x7d' :: []) := by
    simp [bracketTok]
  rw [hshape]
  simp only [expand]
  rw [h1]
  rw [feed_brace lookup _ hnb [] []]
  rw [List.nil_append]
  cases hrb : resolveBracket lookup (k ++ ':' :: d) with
  | error e => simp
  | ok v => simp [feed, flushState]

/-- Modelled from the spec: how the external YAML parser reads the scalar
text standing after `key: ` once expansion has produced it.  Empty
replacement text parses as null (the repository's TestExpand expects
`Value()` to be nil for the `${NOT_THERE:""}` template), a double-quote
pair is the empty string, and other text stands for itself. -/
def parseScalarModel : List Char → Node
  | [] => Node.null
  | ['"', '"'] => Node.scalar (Prim.str "")
  | cs => Node.scalar (Prim.str (String.mk cs))

/-- Claim C7 (amended): when the lookup does not find KEY in a
`${KEY:DEFAULT}` form, the DEFAULT text is used as the replacement; a
DEFAULT of empty length is an EmptyDefault error; and a DEFAULT consisting
of the two-byte literal of two double quotes is replaced by the empty
text, so the value standing at that key parses as null, not as the empty
string. -/
theorem c7_bracket_default (lookup : String → Option String) (k d : List Char)
    (hk : lookup (String.mk k) = none) (hkc : ∀ c ∈ k, c ≠ ':')
    (hkb : ∀ c ∈ k, c ≠ '\x7d') (hdb : ∀ c ∈ d, c ≠ '\x7d') :
    (d ≠ [] → d ≠ ['"', '"'] → expand lookup (bracketTok k d) = .ok d) ∧
    (d = [] → expand lookup (bracketTok k d) =
      .error (.emptyDefault (String.mk k))) ∧
    (d = ['"', '"'] → expand lookup (bracketTok k d) = .ok [] ∧
      parseScalarModel [] = Node.null) := by
  have hb := expand_bracket lookup k d hkb hdb
  rw [resolveBracket, splitColon_key k d hkc] at hb
  simp only [hk] at hb
  refine ⟨?_, ?_, ?_⟩
  · intro h1 h2
    rw [if_neg h1, if_neg h2] at hb
    exact hb
  · intro h1
    subst h1
    simpa using hb
  · intro h1
    subst h1
    refine ⟨?_, rfl⟩
    simpa using hb

/-- Claim C7 counterexample: with an undefined KEY and the two-byte
DEFAULT of two double quotes, the expansion is the empty text, and the
value parsed at that key is Null, not the explicit empty string the claim
promises. -/
theorem c7_counterexample :
    expand (fun _ => none) (bracketTok ['K'] ['"', '"']) = .ok [] ∧
    parseScalarModel [] = Node.null ∧
    Node.null ≠ Node.scalar (Prim.str "") := by
  refine ⟨rfl, rfl, ?_⟩
  simp

/-- Witness for C7's amended statement: `${K:fallback}` with `K` undefined
expands to `fallback`. -/
theorem c7_witness :
    ((fun (_ : String) => (none : Option String)) (String.mk ['K']) = none) ∧
    (∀ c ∈ ['K'], c ≠ ':') ∧
    (∀ c ∈ ['K'], c ≠ '\x7d') ∧
    (∀ c ∈ ['f', 'b'], c ≠ '\x7d') ∧
    ((['f', 'b'] ≠ ([] : List Char) → ['f', 'b'] ≠ ['"', '"'] →
        expand (fun _ => none) (bracketTok ['K'] ['f', 'b']) = .ok ['f', 'b']) ∧
     (['f', 'b'] = ([] : List Char) → expand (fun _ => none) (bracketTok ['K'] ['f', 'b']) =
        .error (.emptyDefault (String.mk ['K']))) ∧
     (['f', 'b'] = ['"', '"'] → expand (fun _ => none) (bracketTok ['K'] ['f', 'b']) =
        .ok [] ∧ parseScalarModel [] = Node.null)) := by
  have h1 : ((fun (_ : String) => (none : Option String)) (String.mk ['K']) = none) := rfl
  have h2 : ∀ c ∈ ['K'], c ≠ ':' := by decide
  have h3 : ∀ c ∈ ['K'], c ≠ '\x7d' := by decide
  have h4 : ∀ c ∈ ['f', 'b'], c ≠ '\x7d' := by decide
  exact ⟨h1, h2, h3, h4, c7_bracket_default (fun _ => none) ['K'] ['f', 'b'] h1 h2 h3 h4⟩

/-- The scalar conversion of the old decoder's `unmarshal` for an int
element (part_011 `convert`/`convertSignedInts`), restricted to the int
scalars the claim uses; anything else is a conversion error. -/
def elemDecodeInt : Node → Except String Int
  | .scalar (.int n) => .ok n
  | _ => .error "can\x27t convert"

/-- The index loop of the old decoder's `decoder.sequence` (part_011 lines
503-534): probe `key.0`, `key.1`, ...; a non-nil value decodes into slot
`ai`; a nil value inside the native length leaves the zero value and
continues; a nil value at or past the native length stops the loop.  The
Go loop is unbounded, so the model carries fuel; any fuel larger than the
stopping index gives the loop's result. -/
def seqLoop (g : String → Node) (key : String) (nativeLen : Nat) :
    Nat → Nat → List Int → Except String (List Int)
  | 0, _, _ => .error "out of fuel"
  | fuel + 1, ai, acc =>
      let v := g (key ++ "." ++ toString ai)
      if isNull v then
        if ai < nativeLen then seqLoop g key nativeLen fuel (ai + 1) (acc ++ [0])
        else .ok acc
      else
        match elemDecodeInt v with
        | .error e => .error e
        | .ok e => seqLoop g key nativeLen fuel (ai + 1) (acc ++ [e])

/-- The old decoder's `decoder.sequence` (part_011 lines 486-541) for a
variable-length []int destination: the native length comes from the
provider's value at `key` (nil passes the collection check with length
zero; a non-sequence, non-nil value is a conversion error), then the index
loop runs. -/
def decoderSequence (g : String → Node) (key : String) (fuel : Nat) :
    Except String (List Int) :=
  match g key with
  | .null => seqLoop g key 0 fuel 0 []
  | .seq xs => seqLoop g key xs.length fuel 0 []
  | _ => .error "can\x27t convert"

theorem seqLoop_spec (g : String → Node) (key : String) (nativeLen s : Nat)
    (hvals : ∀ i, i < s → g (key ++ "." ++ toString i) = Node.null ∨
      ∃ n, g (key ++ "." ++ toString i) = Node.scalar (Prim.int n))
    (hrun : ∀ i, i < s → nativeLen ≤ i → g (key ++ "." ++ toString i) ≠ Node.null)
    (hstop : g (key ++ "." ++ toString s) = Node.null) (hsl : nativeLen ≤ s) :
    ∀ (fuel ai : Nat) (acc : List Int), ai ≤ s → s - ai < fuel →
      seqLoop g key nativeLen fuel ai acc =
        .ok (acc ++ (List.range' ai (s - ai)).map (fun i =>
          match g (key ++ "." ++ toString i) with
          | .scalar (.int n) => n
          | _ => 0)) := by
  intro fuel
  induction fuel with
  | zero =>
      intro ai acc h1 h2
      omega
  | succ fuel ih =>
      intro ai acc h1 h2
      by_cases hais : ai = s
      · subst hais
        have hnn : ¬ai < nativeLen := by omega
        simp [seqLoop, hstop, isNull, hnn, Nat.sub_self]
      · have hlt : ai < s := lt_of_le_of_ne h1 hais
        have hr : s - ai = (s - (ai + 1)) + 1 := by omega
        rw [hr, List.range'_succ]
        cases hvals ai hlt with
        | inl hnull =>
            have hain : ai < nativeLen := by
              rcases Nat.lt_or_ge ai nativeLen with h | h
              · exact h
              · exact absurd hnull (hrun ai hlt h)
            have hihtail := ih (ai + 1) (acc ++ [0]) (by omega) (by omega)
            simp [seqLoop, hnull, isNull, hain, hihtail, List.append_assoc]
        | inr hex =>
            obtain ⟨n, hn⟩ := hex
            have hihtail := ih (ai + 1) (acc ++ [n]) (by omega) (by omega)
            simp [seqLoop, hn, isNull, elemDecodeInt, hihtail, List.append_assoc]

/-- Claim C8: for a provider holding a native int sequence at `a` together
with scalar overrides at the dotted keys `a.0`, `a.1`, ... (an override,
being the longer literal path, supersedes the same-index native element;
`o i = some (some v)` is a scalar override, `o i = some none` an explicit
null override, `o i = none` no override, falling back to the native
element), populating a variable-length int sequence from `a` uses the
override value at each overridden index, extends the logical length to the
first missing index `s` at or past the native end, and leaves an index
whose override is null inside the native length at the element's zero
value. -/
theorem c8_sequence_overrides (g : String → Node) (xs : List Int)
    (o : Nat → Option (Option Int)) (s fuel : Nat)
    (hg0 : g "a" = Node.seq (xs.map fun n => Node.scalar (Prim.int n)))
    (hgi : ∀ i, i < s → g ("a" ++ "." ++ toString i) =
        (match o i with
         | some (some v) => Node.scalar (Prim.int v)
         | some none => Node.null
         | none =>
             match xs.get? i with
             | some n => Node.scalar (Prim.int n)
             | none => Node.null))
    (hstop : g ("a" ++ "." ++ toString s) = Node.null)
    (hs1 : xs.length ≤ s)
    (hs3 : ∀ i, xs.length ≤ i → i < s → ∃ v, o i = some (some v))
    (hfuel : s < fuel) :
    decoderSequence g "a" fuel =
      .ok ((List.range s).map fun i =>
        match o i with
        | some (some v) => v
        | some none => 0
        | none => xs.getD i 0) := by
  have hvals : ∀ i, i < s → g ("a" ++ "." ++ toString i) = Node.null ∨
      ∃ n, g ("a" ++ "." ++ toString i) = Node.scalar (Prim.int n) := by
    intro i hi
    rw [hgi i hi]
    cases ho : o i with
    | none =>
        cases hx : xs.get? i with
        | none => exact Or.inl rfl
        | some n => exact Or.inr ⟨n, rfl⟩
    | some ov =>
        cases ov with
        | none => exact Or.inl rfl
        | some v => exact Or.inr ⟨v, rfl⟩
  have hrun : ∀ i, i < s → xs.length ≤ i →
      g ("a" ++ "." ++ toString i) ≠ Node.null := by
    intro i hi hlen
    obtain ⟨v, hv⟩ := hs3 i hlen hi
    rw [hgi i hi, hv]
    simp
  have hloop := seqLoop_spec g "a" xs.length s hvals hrun hstop hs1 fuel 0 []
    (by omega) (by omega)
  have hds : decoderSequence g "a" fuel = seqLoop g "a" xs.length fuel 0 [] := by
    rw [decoderSequence, hg0]
    simp
  rw [hds, hloop]
  rw [show s - 0 = s from rfl, ← List.range_eq_range' s]
  rw [List.nil_append]
  congr 1
  apply List.map_congr_left
  intro i hi
  rw [List.mem_range] at hi
  rw [hgi i hi]
  cases ho : o i with
  | none =>
      cases hx : xs.get? i with
      | none =>
          rw [List.getD, hx]
          rfl
      | some n =>
          rw [List.getD, hx]
          rfl
  | some ov =>
      cases ov with
      | none => rfl
      | some v => rfl

/-- A concrete old-provider lookup for the spec's scenario 5: native
sequence `a: [0, 1, 2]` plus the dotted scalar override `a.1: 3` (the
literal dotted key wins over the nested traversal). -/
def gExample : String → Node := fun k =>
  if k = "a" then
    Node.seq [Node.scalar (Prim.int 0), Node.scalar (Prim.int 1), Node.scalar (Prim.int 2)]
  else if k = "a.0" then Node.scalar (Prim.int 0)
  else if k = "a.1" then Node.scalar (Prim.int 3)
  else if k = "a.2" then Node.scalar (Prim.int 2)
  else Node.null

/-- The override table of `gExample`: only index 1 is overridden, to 3. -/
def oExample : Nat → Option (Option Int) := fun i =>
  if i = 1 then some (some 3) else none

/-- Witness for C8: `a: [0, 1, 2]` with `a.1: 3` populates as `[0, 3, 2]`. -/
theorem c8_witness :
    gExample "a" = Node.seq (([0, 1, 2] : List Int).map fun n => Node.scalar (Prim.int n)) ∧
    (∀ i, i < 3 → gExample ("a" ++ "." ++ toString i) =
        (match oExample i with
         | some (some v) => Node.scalar (Prim.int v)
         | some none => Node.null
         | none =>
             match ([0, 1, 2] : List Int).get? i with
             | some n => Node.scalar (Prim.int n)
             | none => Node.null)) ∧
    gExample ("a" ++ "." ++ toString 3) = Node.null ∧
    ([0, 1, 2] : List Int).length ≤ 3 ∧
    (∀ i, ([0, 1, 2] : List Int).length ≤ i → i < 3 → ∃ v, oExample i = some (some v)) ∧
    3 < 4 ∧
    decoderSequence gExample "a" 4 =
      .ok ((List.range 3).map fun i =>
        match oExample i with
        | some (some v) => v
        | some none => 0
        | none => ([0, 1, 2] : List Int).getD i 0) ∧
    ((List.range 3).map fun i =>
        match oExample i with
        | some (some v) => v
        | some none => 0
        | none => ([0, 1, 2] : List Int).getD i 0) = [0, 3, 2] := by
  have hg0 : gExample "a" =
      Node.seq (([0, 1, 2] : List Int).map fun n => Node.scalar (Prim.int n)) := rfl
  have hgi : ∀ i, i < 3 → gExample ("a" ++ "." ++ toString i) =
      (match oExample i with
       | some (some v) => Node.scalar (Prim.int v)
       | some none => Node.null
       | none =>
           match ([0, 1, 2] : List Int).get? i with
           | some n => Node.scalar (Prim.int n)
           | none => Node.null) := by
    intro i hi
    interval_cases i <;> rfl
  have hstop : gExample ("a" ++ "." ++ toString 3) = Node.null := rfl
  have hs1 : ([0, 1, 2] : List Int).length ≤ 3 := by decide
  have hs3 : ∀ i, ([0, 1, 2] : List Int).length ≤ i → i < 3 →
      ∃ v, oExample i = some (some v) := by
    intro i h1 h2
    simp at h1
    omega
  have hfuel : 3 < 4 := by decide
  refine ⟨hg0, hgi, hstop, hs1, hs3, hfuel, ?_, rfl⟩
  exact c8_sequence_overrides gExample [0, 1, 2] oExample 3 4 hg0 hgi hstop hs1 hs3 hfuel

/-- The reflect.Kind of a Go destination value (reflect.TypeOf(..).Kind());
only pointer-ness matters to the old decoder's entry check. -/
inductive GoKind where
  | ptr
  | intKind
  | stringKind
  | structKind
  | mapKind
  | sliceKind
  | boolKind
  | floatKind
  | funcKind
deriving DecidableEq

/-- value.go `Value.Populate` (lines 243-252): a non-pointer target is
rejected with an error before the decoder (the `dec` continuation) ever
runs, so nothing is written to the destination and no panic occurs. -/
def oldValuePopulate (targetKind : GoKind) (targetType : String)
    (dec : Except String Unit) : Except String Unit :=
  if targetKind ≠ GoKind.ptr then
    .error ("can\x27t populate non pointer type " ++ targetType)
  else dec

/-- Claim C10: for every non-pointer destination kind the old decoder's
Populate returns the error "can't populate non pointer type ..." without
running the decoder (so it neither panics nor partially writes the
destination, whatever the provider holds at the handle's path). -/
theorem c10_non_pointer_populate (k : GoKind) (tn : String) (dec : Except String Unit)
    (h : k ≠ GoKind.ptr) :
    oldValuePopulate k tn dec = .error ("can\x27t populate non pointer type " ++ tn) := by
  simp [oldValuePopulate, h]

/-- Witness for C10: populating a plain int (the repository's
TestPopulateNonPointerType passes the int 13). -/
theorem c10_witness :
    (GoKind.intKind ≠ GoKind.ptr) ∧
    oldValuePopulate GoKind.intKind "int" (.ok ()) =
      .error ("can\x27t populate non pointer type " ++ "int") := by
  have h : GoKind.intKind ≠ GoKind.ptr := by decide
  exact ⟨h, c10_non_pointer_populate GoKind.intKind "int" (.ok ()) h⟩
